import Mathlib

/-!
Verification of `pdf_merger.py`, a script that walks a source directory
tree, collects the `.pdf`-suffixed files, orders folders and files by a
natural (digit-aware) sort key, appends each candidate to a merger object
with per-file error tolerance, and writes the accumulated document to
`<output_folder>/combined_pdf.pdf`.

The shallow embedding below models strings as `List Char` restricted to
the ASCII behaviour of `str.isdigit`, `str.lower` and `re`'s `\d`
(identical on ASCII input), models the filesystem as an inductive tree of
entries, and models the PDF library opaquely: each file carries either
`some pages` (the page list `merger.append` would add) or `none` (a file
on which `merger.append` raises, e.g. a corrupt PDF; appending a path that
names a directory also raises, hence directories carry no content).
-/

namespace PdfMerger

/-- A token of a natural sort key: Python's
`int(c) if c.isdigit() else c.lower()` yields either a parsed integer or a
lowercased substring. -/
inductive Token : Type where
  | str : List Char → Token
  | num : Nat → Token
deriving DecidableEq, Repr

/-- One fuel-indexed step of `re.split(r'(\d+)', s)`: strip the leading
non-digit chunk, then the maximal digit run, and recurse on the remainder.
Each step consumes at least one digit character, so fuel `s.length + 1`
always suffices (see `reSplitDigits_eq`). -/
def reSplitFuel : Nat → List Char → List (List Char)
  | 0, s => [s.takeWhile (fun c => !c.isDigit)]
  | n + 1, s =>
    match s.dropWhile (fun c => !c.isDigit) with
    | [] => [s.takeWhile (fun c => !c.isDigit)]
    | c :: t =>
      s.takeWhile (fun c => !c.isDigit) ::
        (c :: t).takeWhile Char.isDigit ::
        reSplitFuel n ((c :: t).dropWhile Char.isDigit)

/-- `re.split(r'(\d+)', s)`: split `s` on maximal digit runs, keeping the
runs (the capture group); the result alternates (possibly empty) non-digit
chunks with nonempty digit runs, starting and ending with a non-digit
chunk. -/
def reSplitDigits (s : List Char) : List (List Char) :=
  reSplitFuel (s.length + 1) s

/-- Python `int` of a digit run (base 10). -/
def parseDigits (cs : List Char) : Nat :=
  cs.foldl (fun a c => a * 10 + (c.toNat - '0'.toNat)) 0

/-- Python `c.isdigit()` for a chunk produced by the split: true iff the
chunk is nonempty and all characters are digits. -/
def isDigitChunk (cs : List Char) : Bool :=
  !cs.isEmpty && cs.all Char.isDigit

/-- One element of the list comprehension
`[int(c) if c.isdigit() else c.lower() for c in re.split(r'(\d+)', s)]`. -/
def tokenize (cs : List Char) : Token :=
  if isDigitChunk cs then Token.num (parseDigits cs)
  else Token.str (cs.map Char.toLower)

/-- `natural_sort_key(s)` from `pdf_merger.py`:
`[int(c) if c.isdigit() else c.lower() for c in re.split(r'(\d+)', s)]`. -/
def natural_sort_key (s : List Char) : List Token :=
  (reSplitDigits s).map tokenize

/-- Python code-point comparison of strings (lexicographic). -/
def cmpChars : List Char → List Char → Ordering
  | [], [] => Ordering.eq
  | [], _ :: _ => Ordering.lt
  | _ :: _, [] => Ordering.gt
  | a :: as, b :: bs =>
    match compare a.toNat b.toNat with
    | Ordering.eq => cmpChars as bs
    | o => o

/-- Python comparison of two key tokens: ints compare numerically, strings
lexicographically; comparing an int with a string raises `TypeError`,
modelled as `none`. -/
def tokCmp : Token → Token → Option Ordering
  | Token.num a, Token.num b => some (compare a b)
  | Token.str a, Token.str b => some (cmpChars a b)
  | _, _ => none

/-- Python list comparison of two keys: element-wise, with the
shorter-prefix rule; `none` as soon as a mixed-type element comparison is
attempted. -/
def keyCmp : List Token → List Token → Option Ordering
  | [], [] => some Ordering.eq
  | [], _ :: _ => some Ordering.lt
  | _ :: _, [] => some Ordering.gt
  | a :: as, b :: bs =>
    match tokCmp a b with
    | none => none
    | some Ordering.eq => keyCmp as bs
    | some o => some o

/-- `a ≤ b` on names under the natural sort key, as used by
`sort(key=natural_sort_key)`; ties and the (unreachable) mixed-type case
count as `true`, so a stable sort with this relation reproduces Python's
stable `list.sort`. -/
def nameLE (a b : List Char) : Bool :=
  match keyCmp (natural_sort_key a) (natural_sort_key b) with
  | some Ordering.gt => false
  | _ => true

/-- A filesystem entry: a file (with the pages `merger.append` would add,
or `none` if appending it raises) or a directory with its entries in
`os.listdir`/`os.scandir` order. -/
inductive Entry : Type where
  | file : List Char → Option (List Nat) → Entry
  | dir : List Char → List Entry → Entry
deriving Repr

/-- The name of an entry, as `os.listdir` reports it. -/
def entryName : Entry → List Char
  | Entry.file n _ => n
  | Entry.dir n _ => n

/-- What `merger.append` adds for an entry: a file's pages, or `none` when
append raises (corrupt file, or the path names a directory). -/
def entryPages : Entry → Option (List Nat)
  | Entry.file _ p => p
  | Entry.dir _ _ => none

/-- `os.path.join(a, b)` (POSIX). -/
def osPathJoin (a b : List Char) : List Char :=
  if b.head? = some '/' then b
  else if a = [] ∨ a.getLast? = some '/' then a ++ b
  else a ++ '/' :: b

mutual
/-- The `(root, dirs, files)` triples `os.walk` yields below a directory
entry, as `(path, entries)` pairs in top-down (preorder) traversal order;
files yield nothing. -/
def walkEntry (path : List Char) : Entry → List (List Char × List Entry)
  | Entry.file _ _ => []
  | Entry.dir n sub =>
    (osPathJoin path n, sub) :: walkEntries (osPathJoin path n) sub

/-- `os.walk` below each entry of a directory, in `os.listdir` order. -/
def walkEntries (path : List Char) : List Entry → List (List Char × List Entry)
  | [] => []
  | e :: es => walkEntry path e ++ walkEntries path es
end

/-- `os.walk(source_folder)`: the source tree is `some es` (a directory
with entries `es`) or `none` (the path is missing or not a directory, in
which case CPython's `os.walk` ignores the `scandir` error — the default
`onerror=None` — and yields nothing). -/
def walkRoot (path : List Char) : Option (List Entry) → List (List Char × List Entry)
  | none => []
  | some es => (path, es) :: walkEntries path es

/-- `f.lower().endswith('.pdf')`. -/
def isPdfName (s : List Char) : Bool :=
  ".pdf".toList.isSuffixOf (s.map Char.toLower)

/-- `all_folders.sort(key=natural_sort_key)`: the walked folders sorted
by the natural sort key of their path.  Python's `list.sort` is a stable
sort, and a stable sort's output is uniquely determined by the ordering
and the input order, so it is modelled by a stable insertion sort. -/
def sortedFolders (src : List Char) (root : Option (List Entry)) :
    List (List Char × List Entry) :=
  (walkRoot src root).insertionSort (fun a b => nameLE a.1 b.1 = true)

/-- `[f for f in os.listdir(folder) if f.lower().endswith('.pdf')]`
followed by `pdf_files.sort(key=natural_sort_key)`. `os.listdir` returns
the names of all entries (files and subdirectories); we keep the entries
themselves so that a candidate name resolves to its entry, as it does on a
filesystem, where names within a directory are unique. -/
def pdfCandidates (es : List Entry) : List Entry :=
  (es.filter (fun e => isPdfName (entryName e))).insertionSort
    (fun a b => nameLE (entryName a) (entryName b) = true)

/-- The candidates of one folder, each paired with its full path
`os.path.join(folder, pdf_file)`. -/
def folderCandidates (folder : List Char × List Entry) : List (List Char × Entry) :=
  (pdfCandidates folder.2).map (fun e => (osPathJoin folder.1 (entryName e), e))

/-- All append attempts of a run in execution order: folders in sorted
order, and within each folder the candidates in sorted order. -/
def orderedCandidates (src : List Char) (root : Option (List Entry)) :
    List (List Char × Entry) :=
  ((sortedFolders src root).map folderCandidates).flatten

/-- The merge loop's state: the accumulator's pages, the trace of
`merger.append` invocations, the successfully added paths, the reported
per-file errors, and `pdf_count`. -/
structure MergeSt : Type where
  pages : List Nat
  attempts : List (List Char)
  added : List (List Char)
  errors : List (List Char)
  pdf_count : Nat
deriving DecidableEq, Repr

/-- State before the loop. -/
def initSt : MergeSt := ⟨[], [], [], [], 0⟩

/-- One iteration of the inner loop: `merger.append(pdf_path)`; on success
the pages are appended and `pdf_count` incremented, on an exception the
error is recorded and the loop continues. -/
def appendStep (st : MergeSt) (pe : List Char × Entry) : MergeSt :=
  match entryPages pe.2 with
  | some ps =>
    { st with pages := st.pages ++ ps, attempts := st.attempts ++ [pe.1],
              added := st.added ++ [pe.1], pdf_count := st.pdf_count + 1 }
  | none =>
    { st with attempts := st.attempts ++ [pe.1], errors := st.errors ++ [pe.1] }

/-- The inner `for pdf_file in pdf_files` loop over one folder. -/
def processFolder (st : MergeSt) (folder : List Char × List Entry) : MergeSt :=
  (folderCandidates folder).foldl appendStep st

/-- The outer `for folder in all_folders` loop. -/
def combineMerge (src : List Char) (root : Option (List Entry)) : MergeSt :=
  (sortedFolders src root).foldl processFolder initSt

/-- The filename of the merged output. -/
def combinedName : List Char := "combined_pdf.pdf".toList

/-- The observable outcome of one `combine_pdfs` run. -/
structure RunResult : Type where
  /-- Whether `os.makedirs(output_folder)` ran (it runs iff the folder did
  not already exist, before any scanning). -/
  createdOutputFolder : Bool
  /-- The merge loop's final state. -/
  merge : MergeSt
  /-- The path `merger.write` wrote to, if it ran. -/
  writtenPath : Option (List Char)
  /-- The content at the output path after the run, given the content
  `prevOutput` that was there before (a write replaces it). -/
  outputContent : Option (List Nat)
  /-- Whether the final "No PDF files found" notice was printed. -/
  noPdfNotice : Bool
  /-- Whether the process completed normally (exit status 0). -/
  normalExit : Bool
deriving DecidableEq, Repr

/-- `combine_pdfs(source_folder, output_folder)`. `root` is the source
tree (`none` when `source_folder` does not exist or is not a directory),
`outputFolderExists` whether the output folder already exists, and
`prevOutput` the content previously at the output path. -/
def combine_pdfs (root : Option (List Entry)) (source_folder output_folder : List Char)
    (outputFolderExists : Bool) (prevOutput : Option (List Nat)) : RunResult :=
  let st := combineMerge source_folder root
  if st.pdf_count > 0 then
    { createdOutputFolder := !outputFolderExists, merge := st,
      writtenPath := some (osPathJoin output_folder combinedName),
      outputContent := some st.pages, noPdfNotice := false, normalExit := true }
  else
    { createdOutputFolder := !outputFolderExists, merge := st,
      writtenPath := none, outputContent := prevOutput,
      noPdfNotice := true, normalExit := true }

/-- A chunk containing no digit character. -/
def ndChunk (cs : List Char) : Bool :=
  cs.all (fun c => !c.isDigit)

/-- A nonempty chunk of digit characters (a digit run). -/
def dChunk (cs : List Char) : Bool :=
  !cs.isEmpty && cs.all Char.isDigit

/-- After the leading non-digit chunk, a well-formed split is a sequence
of (digit run, non-digit chunk) pairs; a non-digit chunk standing between
two digit runs must be nonempty (otherwise the two runs would form one
maximal run). -/
def goodPairs : List (List Char) → Bool
  | [] => true
  | d :: nd :: r => dChunk d && ndChunk nd && (r.isEmpty || !nd.isEmpty) && goodPairs r
  | _ :: [] => false

/-- The spec's description of the split: alternating non-digit chunks and
maximal digit runs, starting and ending with a (possibly empty) non-digit
chunk.  Together with `flatten = s` this characterises the split of `s` on
maximal digit runs uniquely. -/
def goodChunks : List (List Char) → Bool
  | [] => false
  | nd :: r => ndChunk nd && goodPairs r

/-- Whether a token is a (lowercased) string token. -/
def isStrTok : Token → Bool
  | Token.str _ => true
  | Token.num _ => false

/-- Tokens strictly alternate between strings and integers; the flag says
whether a string token is expected next (`true` at even positions). -/
def tokensAlternate : Bool → List Token → Bool
  | _, [] => true
  | true, Token.str _ :: r => tokensAlternate false r
  | false, Token.num _ :: r => tokensAlternate true r
  | _, _ => false

/-- Whether an entry is a regular file whose name ends in `.pdf`
(case-insensitively). -/
def isPdfFileEntry : Entry → Bool
  | Entry.file n _ => isPdfName n
  | Entry.dir _ _ => false

/-- Every `.pdf`-suffixed entry reachable from the source folder, with its
full path, folder by folder in walk order, unsorted.  Since `walkRoot`
lists every directory of the tree together with its direct entries, this
enumerates each reachable candidate exactly once. -/
def allPdfCandidates (src : List Char) (root : Option (List Entry)) :
    List (List Char × Entry) :=
  ((walkRoot src root).map (fun f =>
    (f.2.filter (fun e => isPdfName (entryName e))).map
      (fun e => (osPathJoin f.1 (entryName e), e)))).flatten

/-- The source tree contains no `.pdf`-suffixed regular file (`walkRoot`
lists every directory of the tree with its direct entries, so this
quantifies over every file of the tree). -/
def treeHasNoPdfFiles (src : List Char) (root : Option (List Entry)) : Bool :=
  (walkRoot src root).all (fun f => f.2.all (fun e => !isPdfFileEntry e))

/-- Example source tree: three well-formed PDFs listed out of order, to
exercise the natural sort (`a1.pdf`, `a2.pdf`, `a10.pdf`). -/
def exampleTree : List Entry :=
  [Entry.file "a10.pdf".toList (some [10]),
   Entry.file "a1.pdf".toList (some [1]),
   Entry.file "a2.pdf".toList (some [2])]

/-- Example source tree: two well-formed PDFs with one corrupt PDF
interleaved in sort order. -/
def faultTree : List Entry :=
  [Entry.file "b1.pdf".toList (some [1]),
   Entry.file "b2.pdf".toList none,
   Entry.file "b3.pdf".toList (some [3])]

/-- Example source tree containing no PDF file. -/
def txtTree : List Entry :=
  [Entry.file "notes.txt".toList (some [7])]

/-! ### Properties of the key comparison -/

theorem char_toNat_inj {a b : Char} (h : a.toNat = b.toNat) : a = b := by
  unfold Char.toNat at h
  exact Char.ext (UInt32.eq_of_val_eq (Fin.eq_of_val_eq h))

theorem cmpChars_eq_iff : ∀ a b : List Char, cmpChars a b = Ordering.eq ↔ a = b := by
  intro a
  induction a with
  | nil => intro b; cases b <;> simp [cmpChars]
  | cons x xs ih =>
    intro b
    cases b with
    | nil => simp [cmpChars]
    | cons y ys =>
      rcases h : compare x.toNat y.toNat with _ | _ | _
      · simp only [cmpChars, h, List.cons.injEq]
        constructor
        · intro hcon; exact absurd hcon (by simp)
        · rintro ⟨h1, h2⟩
          subst h1
          rw [Nat.compare_eq_eq.mpr rfl] at h
          exact absurd h (by simp)
      · have hx : x = y := char_toNat_inj (Nat.compare_eq_eq.mp h)
        subst hx
        simp only [cmpChars, h]
        simpa using ih ys
      · simp only [cmpChars, h, List.cons.injEq]
        constructor
        · intro hcon; exact absurd hcon (by simp)
        · rintro ⟨h1, h2⟩
          subst h1
          rw [Nat.compare_eq_eq.mpr rfl] at h
          exact absurd h (by simp)

theorem cmpChars_swap : ∀ a b : List Char, cmpChars b a = (cmpChars a b).swap := by
  intro a
  induction a with
  | nil => intro b; cases b <;> simp [cmpChars, Ordering.swap]
  | cons x xs ih =>
    intro b
    cases b with
    | nil => simp [cmpChars, Ordering.swap]
    | cons y ys =>
      simp only [cmpChars]
      rcases h : compare x.toNat y.toNat with hlt | heq | hgt <;>
        rw [← Nat.compare_swap, h] <;> simp [Ordering.swap, ih ys]

theorem cmpChars_lt_trans : ∀ a b c : List Char,
    cmpChars a b = Ordering.lt → cmpChars b c = Ordering.lt →
    cmpChars a c = Ordering.lt := by
  intro a
  induction a with
  | nil =>
    intro b c hab hbc
    cases b with
    | nil => exact absurd hab (by simp [cmpChars])
    | cons y ys =>
      cases c with
      | nil => exact absurd hbc (by simp [cmpChars])
      | cons z zs => simp [cmpChars]
  | cons x xs ih =>
    intro b c hab hbc
    cases b with
    | nil => exact absurd hab (by simp [cmpChars])
    | cons y ys =>
      cases c with
      | nil => exact absurd hbc (by simp [cmpChars])
      | cons z zs =>
        rcases hxy : compare x.toNat y.toNat with _ | _ | _ <;>
          simp only [cmpChars, hxy] at hab <;>
          rcases hyz : compare y.toNat z.toNat with _ | _ | _ <;>
            simp only [cmpChars, hyz] at hbc
        all_goals try exact Ordering.noConfusion hab
        all_goals try exact Ordering.noConfusion hbc
        · have hxz : compare x.toNat z.toNat = Ordering.lt :=
            Nat.compare_eq_lt.mpr
              (Nat.lt_trans (Nat.compare_eq_lt.mp hxy) (Nat.compare_eq_lt.mp hyz))
          simp [cmpChars, hxz]
        · have hxz : compare x.toNat z.toNat = Ordering.lt := by
            rw [← Nat.compare_eq_eq.mp hyz]; exact hxy
          simp [cmpChars, hxz]
        · have hxz : compare x.toNat z.toNat = Ordering.lt := by
            rw [Nat.compare_eq_eq.mp hxy]; exact hyz
          simp [cmpChars, hxz]
        · have hxz : compare x.toNat z.toNat = Ordering.eq := by
            rw [Nat.compare_eq_eq.mp hxy]; exact hyz
          simp only [cmpChars, hxz]
          exact ih ys zs hab hbc

theorem tokCmp_eq_iff : ∀ t u : Token, tokCmp t u = some Ordering.eq ↔ t = u := by
  intro t u
  cases t with
  | str a =>
    cases u with
    | str b =>
      simp only [tokCmp, Option.some.injEq, Token.str.injEq]
      exact cmpChars_eq_iff a b
    | num b =>
      simp only [tokCmp]
      constructor
      · intro h; exact Option.noConfusion h
      · intro h; exact Token.noConfusion h
  | num a =>
    cases u with
    | str b =>
      simp only [tokCmp]
      constructor
      · intro h; exact Option.noConfusion h
      · intro h; exact Token.noConfusion h
    | num b =>
      simp only [tokCmp, Option.some.injEq, Token.num.injEq]
      exact Nat.compare_eq_eq

theorem tokCmp_swap : ∀ t u : Token, tokCmp u t = (tokCmp t u).map Ordering.swap := by
  intro t u
  cases t with
  | str a =>
    cases u with
    | str b => simp only [tokCmp, Option.map_some', cmpChars_swap a b]
    | num b => rfl
  | num a =>
    cases u with
    | str b => rfl
    | num b =>
      simp only [tokCmp, Option.map_some']
      exact congrArg some (Nat.compare_swap a b).symm

theorem tokCmp_lt_trans : ∀ t u v : Token,
    tokCmp t u = some Ordering.lt → tokCmp u v = some Ordering.lt →
    tokCmp t v = some Ordering.lt := by
  intro t u v htu huv
  cases t <;> cases u <;> cases v <;>
    simp only [tokCmp, Option.some.injEq] at htu huv ⊢ <;>
    first
      | exact Option.noConfusion htu
      | exact Option.noConfusion huv
      | exact cmpChars_lt_trans _ _ _ htu huv
      | exact Nat.compare_eq_lt.mpr
          (Nat.lt_trans (Nat.compare_eq_lt.mp htu) (Nat.compare_eq_lt.mp huv))

theorem keyCmp_eq_iff : ∀ k1 k2 : List Token, keyCmp k1 k2 = some Ordering.eq ↔ k1 = k2 := by
  intro k1
  induction k1 with
  | nil => intro k2; cases k2 <;> simp [keyCmp]
  | cons t ts ih =>
    intro k2
    cases k2 with
    | nil => simp [keyCmp]
    | cons u us =>
      simp only [keyCmp]
      rcases h : tokCmp t u with _ | o
      · have : t ≠ u := by
          intro he
          rw [he] at h
          rw [(tokCmp_eq_iff u u).mpr rfl] at h
          exact Option.noConfusion h
        simp [this]
      · cases o with
        | lt =>
          have : t ≠ u := by
            intro he
            rw [he, (tokCmp_eq_iff u u).mpr rfl] at h
            simp at h
          simp [this]
        | eq =>
          have ht : t = u := (tokCmp_eq_iff t u).mp h
          subst ht
          simp [ih us]
        | gt =>
          have : t ≠ u := by
            intro he
            rw [he, (tokCmp_eq_iff u u).mpr rfl] at h
            simp at h
          simp [this]

theorem keyCmp_swap : ∀ k1 k2 : List Token,
    keyCmp k2 k1 = (keyCmp k1 k2).map Ordering.swap := by
  intro k1
  induction k1 with
  | nil => intro k2; cases k2 <;> simp [keyCmp, Ordering.swap]
  | cons t ts ih =>
    intro k2
    cases k2 with
    | nil => simp [keyCmp, Ordering.swap]
    | cons u us =>
      simp only [keyCmp, tokCmp_swap t u]
      rcases h : tokCmp t u with _ | o
      · simp
      · cases o <;> simp [Ordering.swap, ih us]

theorem keyCmp_lt_trans : ∀ k1 k2 k3 : List Token,
    keyCmp k1 k2 = some Ordering.lt → keyCmp k2 k3 = some Ordering.lt →
    keyCmp k1 k3 = some Ordering.lt := by
  intro k1
  induction k1 with
  | nil =>
    intro k2 k3 h12 h23
    cases k2 with
    | nil => exact absurd h12 (by simp [keyCmp])
    | cons u us =>
      cases k3 with
      | nil => exact absurd h23 (by simp [keyCmp])
      | cons v vs => simp [keyCmp]
  | cons t ts ih =>
    intro k2 k3 h12 h23
    cases k2 with
    | nil => exact absurd h12 (by simp [keyCmp])
    | cons u us =>
      cases k3 with
      | nil => exact absurd h23 (by simp [keyCmp])
      | cons v vs =>
        rcases htu : tokCmp t u with _ | o1
        · simp only [keyCmp, htu] at h12
          exact Option.noConfusion h12
        · rcases huv : tokCmp u v with _ | o2
          · simp only [keyCmp, huv] at h23
            exact Option.noConfusion h23
          · cases o1 with
            | lt =>
              cases o2 with
              | lt =>
                have h := tokCmp_lt_trans _ _ _ htu huv
                simp [keyCmp, h]
              | eq =>
                have hu : u = v := (tokCmp_eq_iff u v).mp huv
                subst hu
                simp [keyCmp, htu]
              | gt =>
                simp only [keyCmp, huv] at h23
                exact absurd h23 (by decide)
            | eq =>
              have ht : t = u := (tokCmp_eq_iff t u).mp htu
              subst ht
              simp only [keyCmp, htu] at h12
              cases o2 with
              | lt => simp [keyCmp, huv]
              | eq =>
                have ht2 : t = v := (tokCmp_eq_iff t v).mp huv
                subst ht2
                simp only [keyCmp, huv] at h23
                simp only [keyCmp, huv]
                exact ih us vs h12 h23
              | gt =>
                simp only [keyCmp, huv] at h23
                exact absurd h23 (by decide)
            | gt =>
              simp only [keyCmp, htu] at h12
              exact absurd h12 (by decide)

/-! ### Structure of the split on maximal digit runs -/

theorem dropWhile_head_false {α : Type} {p : α → Bool} :
    ∀ {l : List α} {a : α} {t : List α}, l.dropWhile p = a :: t → p a = false := by
  intro l
  induction l with
  | nil => intro a t h; exact absurd h (by simp)
  | cons x xs ih =>
    intro a t h
    rw [List.dropWhile_cons] at h
    by_cases hp : p x = true
    · rw [if_pos hp] at h; exact ih h
    · rw [if_neg hp] at h
      cases h
      simpa using hp

theorem takeWhile_append_of_all {α : Type} {p : α → Bool} :
    ∀ {l m : List α}, l.all p = true → (l ++ m).takeWhile p = l ++ m.takeWhile p := by
  intro l
  induction l with
  | nil => intro m _; simp
  | cons x xs ih =>
    intro m hall
    simp only [List.all_cons, Bool.and_eq_true] at hall
    simp only [List.cons_append, List.takeWhile_cons_of_pos hall.1]
    rw [ih hall.2]

theorem dropWhile_append_of_all {α : Type} {p : α → Bool} :
    ∀ {l m : List α}, l.all p = true → (l ++ m).dropWhile p = m.dropWhile p := by
  intro l
  induction l with
  | nil => intro m _; simp
  | cons x xs ih =>
    intro m hall
    simp only [List.all_cons, Bool.and_eq_true] at hall
    simp only [List.cons_append, List.dropWhile_cons_of_pos hall.1]
    exact ih hall.2

theorem takeWhile_eq_self_of_all {α : Type} {p : α → Bool} {l : List α}
    (h : l.all p = true) : l.takeWhile p = l := by
  have := takeWhile_append_of_all (m := ([] : List α)) h
  simpa using this

theorem dropWhile_eq_nil_of_all {α : Type} {p : α → Bool} {l : List α}
    (h : l.all p = true) : l.dropWhile p = [] := by
  have := dropWhile_append_of_all (m := ([] : List α)) h
  simpa using this

theorem length_dropWhile_le {α : Type} (p : α → Bool) (l : List α) :
    (l.dropWhile p).length ≤ l.length := by
  induction l with
  | nil => simp
  | cons a l ih =>
    rw [List.dropWhile_cons]
    split
    · exact Nat.le_trans ih (by simp)
    · simp

theorem dropWhile_isDigit_shorter {s : List Char} {c : Char} {t : List Char}
    (h : s.dropWhile (fun c => !c.isDigit) = c :: t) :
    ((c :: t).dropWhile Char.isDigit).length < s.length := by
  have hd : c.isDigit = true := by
    have := dropWhile_head_false h
    simpa using this
  have h1 : ((c :: t).dropWhile Char.isDigit).length ≤ t.length := by
    rw [List.dropWhile_cons_of_pos hd]
    exact length_dropWhile_le _ t
  have h2 := length_dropWhile_le (fun c => !c.isDigit) s
  rw [h] at h2
  simp only [List.length_cons] at h2
  omega

theorem reSplitFuel_congr : ∀ (n m : Nat) (s : List Char),
    s.length < n → s.length < m → reSplitFuel n s = reSplitFuel m s := by
  intro n
  induction n with
  | zero => intro m s hn _; exact absurd hn (by omega)
  | succ n ihn =>
    intro m s hn hm
    rcases m with _ | m
    · exact absurd hm (by omega)
    rcases h : s.dropWhile (fun c => !c.isDigit) with _ | ⟨c, t⟩
    · simp only [reSplitFuel, h]
    · have hlt := dropWhile_isDigit_shorter h
      simp only [reSplitFuel, h]
      rw [ihn m ((c :: t).dropWhile Char.isDigit) (by omega) (by omega)]

/-- The defining equation of the split: `reSplitDigits` strips the leading
non-digit chunk, then the maximal digit run, and recurses. -/
theorem reSplitDigits_eq (s : List Char) :
    reSplitDigits s =
      match s.dropWhile (fun c => !c.isDigit) with
      | [] => [s.takeWhile (fun c => !c.isDigit)]
      | c :: t =>
        s.takeWhile (fun c => !c.isDigit) ::
          (c :: t).takeWhile Char.isDigit ::
          reSplitDigits ((c :: t).dropWhile Char.isDigit) := by
  rw [reSplitDigits]
  rcases h : s.dropWhile (fun c => !c.isDigit) with _ | ⟨c, t⟩
  · simp only [reSplitFuel, h]
  · have hlt := dropWhile_isDigit_shorter h
    simp only [reSplitFuel, h]
    rw [reSplitDigits]
    rw [reSplitFuel_congr s.length (((c :: t).dropWhile Char.isDigit).length + 1)
      ((c :: t).dropWhile Char.isDigit) (by omega) (by omega)]

theorem flatten_reSplit_aux : ∀ (n : Nat) (s : List Char), s.length ≤ n →
    (reSplitDigits s).flatten = s := by
  intro n
  induction n with
  | zero =>
    intro s hlen
    have : s = [] := List.eq_nil_of_length_eq_zero (Nat.le_zero.mp hlen)
    subst this
    rfl
  | succ n ihn =>
    intro s hlen
    rw [reSplitDigits_eq]
    split
    · rename_i hnil
      simp only [List.flatten_cons, List.flatten_nil, List.append_nil]
      have := List.takeWhile_append_dropWhile (p := fun c => !c.isDigit) (l := s)
      rw [hnil] at this
      simpa using this
    · rename_i c t hct
      have hlt := dropWhile_isDigit_shorter hct
      simp only [List.flatten_cons]
      rw [ihn _ (by omega)]
      rw [List.takeWhile_append_dropWhile, ← hct, List.takeWhile_append_dropWhile]

theorem flatten_reSplit (s : List Char) : (reSplitDigits s).flatten = s :=
  flatten_reSplit_aux s.length s (Nat.le_refl _)

theorem goodChunks_reSplit_aux : ∀ (n : Nat) (s : List Char), s.length ≤ n →
    goodChunks (reSplitDigits s) = true := by
  intro n
  induction n with
  | zero =>
    intro s hlen
    have : s = [] := List.eq_nil_of_length_eq_zero (Nat.le_zero.mp hlen)
    subst this
    rfl
  | succ n ihn =>
    intro s hlen
    rw [reSplitDigits_eq]
    split
    · simp only [goodChunks, goodPairs, Bool.and_true, ndChunk]
      exact List.all_takeWhile
    · rename_i c t hct
      have hltX := dropWhile_isDigit_shorter hct
      have ih : goodChunks (reSplitDigits ((c :: t).dropWhile Char.isDigit)) = true :=
        ihn _ (by omega)
      have hcd : c.isDigit = true := by
        have := dropWhile_head_false hct
        simpa using this
      -- the recursive result is a nonempty list headed by a non-digit chunk
      rcases hsplit : reSplitDigits ((c :: t).dropWhile Char.isDigit) with _ | ⟨nd2, r2⟩
      · rw [hsplit] at ih
        exact absurd ih (by simp [goodChunks])
      · rw [hsplit] at ih
        simp only [goodChunks, Bool.and_eq_true] at ih
        simp only [goodChunks, goodPairs, Bool.and_eq_true]
        refine ⟨?_, ⟨⟨⟨?_, ih.1⟩, ?_⟩, ih.2⟩⟩
        · simp only [ndChunk]
          exact List.all_takeWhile
        · rw [List.takeWhile_cons_of_pos hcd]
          simp only [dChunk, List.isEmpty_cons, Bool.not_false, Bool.true_and,
            List.all_cons, hcd, Bool.true_and]
          exact List.all_takeWhile
        · -- if more chunks follow, the separating non-digit chunk is nonempty
          rcases hr2 : r2 with _ | ⟨d2, r3⟩
          · simp
          · have hne : nd2 ≠ [] := by
              -- nd2 is the head chunk of `reSplitDigits X` with more behind it,
              -- so `X.dropWhile (!isDigit)` was nonempty and `X` starts with a
              -- non-digit character
              rw [reSplitDigits_eq] at hsplit
              revert hsplit
              split
              · intro hsplit
                rw [hr2] at hsplit
                simp at hsplit
              · rename_i c'' t'' hct2
                intro hsplit
                rw [List.cons.injEq] at hsplit
                have hX : (c :: t).dropWhile Char.isDigit ≠ [] := by
                  intro hXnil
                  rw [hXnil] at hct2
                  exact absurd hct2 (by simp)
                rcases hXc : (c :: t).dropWhile Char.isDigit with _ | ⟨y, ys⟩
                · exact absurd hXc hX
                · have hy : y.isDigit = false := by
                    have := dropWhile_head_false hXc
                    simpa using this
                  rw [← hsplit.1, hXc, List.takeWhile_cons_of_pos (by simp [hy])]
                  simp
            simp [hne]

theorem goodChunks_reSplit (s : List Char) : goodChunks (reSplitDigits s) = true :=
  goodChunks_reSplit_aux s.length s (Nat.le_refl _)

theorem reSplit_eq_aux : ∀ (n : Nat) (cs : List (List Char)), cs.length ≤ n →
    goodChunks cs = true → reSplitDigits cs.flatten = cs := by
  intro n
  induction n with
  | zero =>
    intro cs hlen hgood
    have hnil : cs = [] := List.eq_nil_of_length_eq_zero (Nat.le_zero.mp hlen)
    subst hnil
    simp [goodChunks] at hgood
  | succ n ihn =>
    intro cs hlen hgood
    rcases cs with _ | ⟨nd, rest⟩
    · simp [goodChunks] at hgood
    rcases rest with _ | ⟨d, rest2⟩
    · simp only [goodChunks, goodPairs, Bool.and_true, ndChunk] at hgood
      simp only [List.flatten_cons, List.flatten_nil, List.append_nil]
      rw [reSplitDigits_eq]
      split
      · rw [takeWhile_eq_self_of_all hgood]
      · rename_i c t hct
        rw [dropWhile_eq_nil_of_all hgood] at hct
        exact absurd hct (by simp)
    rcases rest2 with _ | ⟨nd', r'⟩
    · simp [goodChunks, goodPairs] at hgood
    simp only [goodChunks, goodPairs, Bool.and_eq_true] at hgood
    obtain ⟨hnd, ⟨⟨hd, hnd'⟩, hsep⟩, hr'⟩ := hgood
    simp only [ndChunk] at hnd hnd'
    simp only [dChunk, Bool.and_eq_true] at hd
    obtain ⟨hdne, hdall⟩ := hd
    rcases d with _ | ⟨e, d0⟩
    · simp at hdne
    simp only [List.all_cons, Bool.and_eq_true] at hdall
    obtain ⟨he, hd0⟩ := hdall
    -- the digit run cannot be continued into `nd' ++ r'.flatten`
    have htake0 : (nd' ++ r'.flatten).takeWhile Char.isDigit = [] := by
      rcases nd' with _ | ⟨a, nd0⟩
      · simp only [Bool.or_eq_true, List.isEmpty_iff] at hsep
        rcases hsep with hre | hne
        · subst hre; simp
        · simp at hne
      · simp only [List.all_cons, Bool.and_eq_true] at hnd'
        simp only [List.cons_append]
        rw [List.takeWhile_cons_of_neg (by simp [Bool.not_eq_true] at hnd' ⊢; exact hnd'.1)]
    have hdropY : (nd' ++ r'.flatten).dropWhile Char.isDigit = nd' ++ r'.flatten := by
      rcases nd' with _ | ⟨a, nd0⟩
      · simp only [Bool.or_eq_true, List.isEmpty_iff] at hsep
        rcases hsep with hre | hne
        · subst hre; simp
        · simp at hne
      · simp only [List.all_cons, Bool.and_eq_true] at hnd'
        simp only [List.cons_append]
        rw [List.dropWhile_cons_of_neg (by simp [Bool.not_eq_true] at hnd' ⊢; exact hnd'.1)]
    have hdrop : ((nd :: (e :: d0) :: nd' :: r').flatten).dropWhile (fun c => !c.isDigit)
        = e :: (d0 ++ (nd' ++ r'.flatten)) := by
      simp only [List.flatten_cons]
      rw [dropWhile_append_of_all hnd]
      simp only [List.cons_append]
      rw [List.dropWhile_cons_of_neg (by simp [he])]
    rw [reSplitDigits_eq]
    split
    · rename_i hnil
      rw [hdrop] at hnil
      exact absurd hnil (by simp)
    · rename_i c t hct
      rw [hdrop] at hct
      cases hct
      have g1 : ((nd :: (e :: d0) :: nd' :: r').flatten).takeWhile (fun c => !c.isDigit) = nd := by
        simp only [List.flatten_cons]
        rw [takeWhile_append_of_all hnd]
        simp only [List.cons_append]
        rw [List.takeWhile_cons_of_neg (by simp [he])]
        simp
      have g2 : (e :: (d0 ++ (nd' ++ r'.flatten))).takeWhile Char.isDigit = e :: d0 := by
        rw [List.takeWhile_cons_of_pos he, takeWhile_append_of_all hd0, htake0]
        simp
      have g3 : (e :: (d0 ++ (nd' ++ r'.flatten))).dropWhile Char.isDigit
          = (nd' :: r').flatten := by
        rw [List.dropWhile_cons_of_pos he, dropWhile_append_of_all hd0, hdropY]
        simp [List.flatten_cons]
      rw [g1, g2, g3]
      have hrec : reSplitDigits ((nd' :: r').flatten) = nd' :: r' := by
        apply ihn
        · simp only [List.length_cons] at hlen ⊢
          omega
        · simp only [goodChunks, Bool.and_eq_true, ndChunk]
          exact ⟨hnd', hr'⟩
      rw [hrec]

/-- Uniqueness: a well-formed alternating split whose chunks concatenate
to `s` is exactly `reSplitDigits s`. -/
theorem reSplit_unique (s : List Char) (cs : List (List Char))
    (hgood : goodChunks cs = true) (hflat : cs.flatten = s) :
    cs = reSplitDigits s := by
  rw [← hflat]
  exact (reSplit_eq_aux cs.length cs (Nat.le_refl _) hgood).symm

/-! ### Alternation of key tokens and totality of the sort relation -/

theorem isDigitChunk_false_of_nd {cs : List Char} (h : ndChunk cs = true) :
    isDigitChunk cs = false := by
  rcases cs with _ | ⟨a, l⟩
  · rfl
  · simp only [ndChunk, List.all_cons, Bool.and_eq_true] at h
    simp only [isDigitChunk, List.all_cons, List.isEmpty_cons, Bool.not_false,
      Bool.true_and]
    have ha : a.isDigit = false := by
      have := h.1
      simp only [Bool.not_eq_true'] at this
      exact this
    simp [ha]

theorem tokenize_nd {cs : List Char} (h : ndChunk cs = true) :
    tokenize cs = Token.str (cs.map Char.toLower) := by
  simp [tokenize, isDigitChunk_false_of_nd h]

theorem tokenize_d {cs : List Char} (h : dChunk cs = true) :
    tokenize cs = Token.num (parseDigits cs) := by
  simp only [dChunk, Bool.and_eq_true] at h
  simp [tokenize, isDigitChunk, h.1, h.2]

theorem tokensAlternate_pairs : ∀ (n : Nat) (r : List (List Char)), r.length ≤ n →
    goodPairs r = true → tokensAlternate false (r.map tokenize) = true := by
  intro n
  induction n with
  | zero =>
    intro r hlen _
    have : r = [] := List.eq_nil_of_length_eq_zero (Nat.le_zero.mp hlen)
    subst this
    rfl
  | succ n ihn =>
    intro r hlen hgood
    rcases r with _ | ⟨d, r1⟩
    · rfl
    rcases r1 with _ | ⟨nd, r2⟩
    · simp [goodPairs] at hgood
    simp only [goodPairs, Bool.and_eq_true] at hgood
    obtain ⟨⟨⟨hd, hnd⟩, _⟩, hr2⟩ := hgood
    simp only [List.map_cons, tokenize_d hd, tokenize_nd hnd]
    simp only [tokensAlternate]
    apply ihn
    · simp only [List.length_cons] at hlen ⊢
      omega
    · exact hr2

theorem key_alternates (s : List Char) :
    tokensAlternate true (natural_sort_key s) = true := by
  have hgood := goodChunks_reSplit s
  rcases hs : reSplitDigits s with _ | ⟨nd, r⟩
  · rw [hs] at hgood
    simp [goodChunks] at hgood
  · rw [hs] at hgood
    simp only [goodChunks, Bool.and_eq_true] at hgood
    simp only [natural_sort_key, hs, List.map_cons, tokenize_nd hgood.1]
    simp only [tokensAlternate]
    exact tokensAlternate_pairs r.length r (Nat.le_refl _) hgood.2

theorem keyCmp_isSome_of_alt : ∀ (k1 : List Token) (b : Bool) (k2 : List Token),
    tokensAlternate b k1 = true → tokensAlternate b k2 = true →
    (keyCmp k1 k2).isSome = true := by
  intro k1
  induction k1 with
  | nil =>
    intro b k2 _ _
    cases k2 <;> simp [keyCmp]
  | cons t ts ih =>
    intro b k2 h1 h2
    cases k2 with
    | nil => simp [keyCmp]
    | cons u us =>
      cases b with
      | true =>
        cases t with
        | num a => simp [tokensAlternate] at h1
        | str a =>
          cases u with
          | num c => simp [tokensAlternate] at h2
          | str c =>
            simp only [tokensAlternate] at h1 h2
            simp only [keyCmp, tokCmp]
            rcases ho : cmpChars a c with _ | _ | _ <;> simp only []
            · simp
            · exact ih false us h1 h2
            · simp
      | false =>
        cases t with
        | str a => simp [tokensAlternate] at h1
        | num a =>
          cases u with
          | str c => simp [tokensAlternate] at h2
          | num c =>
            simp only [tokensAlternate] at h1 h2
            simp only [keyCmp, tokCmp]
            rcases ho : compare a c with _ | _ | _ <;> simp only []
            · simp
            · exact ih true us h1 h2
            · simp

theorem keyCmp_keys_isSome (a b : List Char) :
    (keyCmp (natural_sort_key a) (natural_sort_key b)).isSome = true :=
  keyCmp_isSome_of_alt _ true _ (key_alternates a) (key_alternates b)

theorem nameLE_total : ∀ a b : List Char, (nameLE a b || nameLE b a) = true := by
  intro a b
  rcases h : keyCmp (natural_sort_key a) (natural_sort_key b) with _ | o
  · have := keyCmp_keys_isSome a b
    rw [h] at this
    exact absurd this (by simp)
  · cases o with
    | lt => simp [nameLE, h]
    | eq => simp [nameLE, h]
    | gt =>
      have hswap := keyCmp_swap (natural_sort_key a) (natural_sort_key b)
      rw [h] at hswap
      simp only [Option.map_some'] at hswap
      simp [nameLE, hswap, Ordering.swap]

theorem nameLE_trans : ∀ a b c : List Char,
    nameLE a b = true → nameLE b c = true → nameLE a c = true := by
  intro a b c hab hbc
  rcases h1 : keyCmp (natural_sort_key a) (natural_sort_key b) with _ | o1
  · have := keyCmp_keys_isSome a b
    rw [h1] at this
    exact absurd this (by simp)
  rcases h2 : keyCmp (natural_sort_key b) (natural_sort_key c) with _ | o2
  · have := keyCmp_keys_isSome b c
    rw [h2] at this
    exact absurd this (by simp)
  rcases h3 : keyCmp (natural_sort_key a) (natural_sort_key c) with _ | o3
  · have := keyCmp_keys_isSome a c
    rw [h3] at this
    exact absurd this (by simp)
  cases o3 with
  | lt => simp [nameLE, h3]
  | eq => simp [nameLE, h3]
  | gt =>
    exfalso
    cases o1 with
    | gt => simp [nameLE, h1] at hab
    | eq =>
      have he : natural_sort_key a = natural_sort_key b := (keyCmp_eq_iff _ _).mp h1
      rw [he, h2] at h3
      cases o2 with
      | gt => simp [nameLE, h2] at hbc
      | lt => exact Option.noConfusion h3 (fun h => Ordering.noConfusion h)
      | eq => exact Option.noConfusion h3 (fun h => Ordering.noConfusion h)
    | lt =>
      cases o2 with
      | gt => simp [nameLE, h2] at hbc
      | eq =>
        have he : natural_sort_key b = natural_sort_key c := (keyCmp_eq_iff _ _).mp h2
        rw [← he, h1] at h3
        exact Option.noConfusion h3 (fun h => Ordering.noConfusion h)
      | lt =>
        have := keyCmp_lt_trans _ _ _ h1 h2
        rw [h3] at this
        exact Option.noConfusion this (fun h => Ordering.noConfusion h)

/-! ### The merge loop as a fold over the ordered candidates -/

theorem foldl_processFolder : ∀ (l : List (List Char × List Entry)) (st : MergeSt),
    l.foldl processFolder st = ((l.map folderCandidates).flatten).foldl appendStep st := by
  intro l
  induction l with
  | nil => intro st; rfl
  | cons f l ih =>
    intro st
    simp only [List.foldl_cons, List.map_cons, List.flatten_cons, List.foldl_append]
    rw [ih]
    rfl

theorem combineMerge_eq_foldl (src : List Char) (root : Option (List Entry)) :
    combineMerge src root = (orderedCandidates src root).foldl appendStep initSt := by
  rw [combineMerge, foldl_processFolder, orderedCandidates]

theorem foldl_appendStep : ∀ (l : List (List Char × Entry)) (st : MergeSt),
    l.foldl appendStep st =
      { pages := st.pages ++ (l.filterMap (fun pe => entryPages pe.2)).flatten,
        attempts := st.attempts ++ l.map Prod.fst,
        added := st.added ++
          ((l.filter (fun pe => (entryPages pe.2).isSome)).map Prod.fst),
        errors := st.errors ++
          ((l.filter (fun pe => !(entryPages pe.2).isSome)).map Prod.fst),
        pdf_count := st.pdf_count +
          (l.filter (fun pe => (entryPages pe.2).isSome)).length } := by
  intro l
  induction l with
  | nil => intro st; simp
  | cons pe l ih =>
    intro st
    rcases hp : entryPages pe.2 with _ | ps
    · simp only [List.foldl_cons, appendStep, hp]
      rw [ih]
      simp only [List.filterMap_cons, hp, List.filter_cons, List.map_cons,
        Option.isSome_none, Bool.not_false, Bool.false_eq_true, if_false,
        if_true, List.length_cons]
      simp [List.append_assoc]
    · simp only [List.foldl_cons, appendStep, hp]
      rw [ih]
      simp only [List.filterMap_cons, hp, List.filter_cons, List.map_cons,
        Option.isSome_some, Bool.not_true, Bool.false_eq_true, if_false,
        if_true, List.length_cons, List.flatten_cons]
      simp [List.append_assoc]
      omega

/-! ### Paths of candidates keep their `.pdf` suffix -/

theorem suffix_osPathJoin (a b : List Char) : b <:+ osPathJoin a b := by
  rw [osPathJoin]
  split
  · exact List.suffix_rfl
  · split
    · exact List.suffix_append a b
    · rw [List.append_cons]
      exact List.suffix_append _ b

theorem isPdfName_osPathJoin {a b : List Char} (h : isPdfName b = true) :
    isPdfName (osPathJoin a b) = true := by
  simp only [isPdfName, List.isSuffixOf_iff_suffix] at h ⊢
  exact h.trans (List.IsSuffix.map _ (suffix_osPathJoin a b))

theorem mem_orderedCandidates {src : List Char} {root : Option (List Entry)}
    {pe : List Char × Entry} (hmem : pe ∈ orderedCandidates src root) :
    ∃ f, f ∈ sortedFolders src root ∧ ∃ e, e ∈ f.2 ∧
      isPdfName (entryName e) = true ∧ pe = (osPathJoin f.1 (entryName e), e) := by
  simp only [orderedCandidates, List.mem_flatten, List.mem_map] at hmem
  obtain ⟨cand, ⟨f, hf, rfl⟩, hpe⟩ := hmem
  refine ⟨f, hf, ?_⟩
  simp only [folderCandidates, List.mem_map] at hpe
  obtain ⟨e, he, rfl⟩ := hpe
  have hperm := List.perm_insertionSort
    (fun a b => nameLE (entryName a) (entryName b) = true)
    (f.2.filter (fun e => isPdfName (entryName e)))
  have he2 : e ∈ f.2.filter (fun e => isPdfName (entryName e)) :=
    hperm.mem_iff.mp (by simpa [pdfCandidates] using he)
  rw [List.mem_filter] at he2
  exact ⟨e, he2.1, he2.2, rfl⟩

/-! ### Permutation and sortedness facts about the ordering -/

theorem flatten_map_perm_congr {α β : Type} :
    ∀ (l : List α) (f g : α → List β), (∀ x ∈ l, (f x).Perm (g x)) →
    ((l.map f).flatten).Perm ((l.map g).flatten) := by
  intro l f g
  induction l with
  | nil => intro _; simp
  | cons x l ih =>
    intro h
    simp only [List.map_cons, List.flatten_cons]
    exact (h x (by simp)).append (ih (fun y hy => h y (by simp [hy])))

theorem sortedFolders_perm (src : List Char) (root : Option (List Entry)) :
    (sortedFolders src root).Perm (walkRoot src root) :=
  List.perm_insertionSort _ _

theorem folderCandidates_perm (f : List Char × List Entry) :
    (folderCandidates f).Perm
      ((f.2.filter (fun e => isPdfName (entryName e))).map
        (fun e => (osPathJoin f.1 (entryName e), e))) := by
  exact List.Perm.map _ (List.perm_insertionSort _ _)

theorem orderedCandidates_perm (src : List Char) (root : Option (List Entry)) :
    (orderedCandidates src root).Perm (allPdfCandidates src root) := by
  have h1 : (orderedCandidates src root).Perm
      (((walkRoot src root).map folderCandidates).flatten) := by
    exact List.Perm.flatten (List.Perm.map _ (sortedFolders_perm src root))
  have h2 : (((walkRoot src root).map folderCandidates).flatten).Perm
      (allPdfCandidates src root) := by
    exact flatten_map_perm_congr _ _ _ (fun f _ => folderCandidates_perm f)
  exact h1.trans h2

theorem nameLE_total_prop (a b : List Char) : nameLE a b = true ∨ nameLE b a = true := by
  have := nameLE_total a b
  rcases Bool.or_eq_true_iff.mp this with h | h
  · exact Or.inl h
  · exact Or.inr h

theorem sortedFolders_sorted (src : List Char) (root : Option (List Entry)) :
    (sortedFolders src root).Pairwise (fun a b => nameLE a.1 b.1 = true) := by
  have := @List.sorted_insertionSort (List Char × List Entry)
    (fun a b => nameLE a.1 b.1 = true) (fun a b => inferInstance)
    ⟨fun a b => nameLE_total_prop a.1 b.1⟩
    ⟨fun a b c hab hbc => nameLE_trans _ _ _ hab hbc⟩
    (walkRoot src root)
  exact this

theorem pdfCandidates_sorted (es : List Entry) :
    (pdfCandidates es).Pairwise (fun a b => nameLE (entryName a) (entryName b) = true) := by
  have := @List.sorted_insertionSort Entry
    (fun a b => nameLE (entryName a) (entryName b) = true) (fun a b => inferInstance)
    ⟨fun a b => nameLE_total_prop (entryName a) (entryName b)⟩
    ⟨fun a b c hab hbc => nameLE_trans _ _ _ hab hbc⟩
    (es.filter (fun e => isPdfName (entryName e)))
  exact this

/-! ### Unfolding `combine_pdfs` -/

theorem combine_pdfs_merge (root : Option (List Entry)) (src out : List Char)
    (ex : Bool) (prev : Option (List Nat)) :
    (combine_pdfs root src out ex prev).merge = combineMerge src root := by
  rw [combine_pdfs]
  split <;> rfl

theorem combine_pdfs_created (root : Option (List Entry)) (src out : List Char)
    (ex : Bool) (prev : Option (List Nat)) :
    (combine_pdfs root src out ex prev).createdOutputFolder = !ex := by
  rw [combine_pdfs]
  split <;> rfl

theorem combine_pdfs_of_count_zero {root : Option (List Entry)} {src : List Char}
    (out : List Char) (ex : Bool) (prev : Option (List Nat))
    (h : (combineMerge src root).pdf_count = 0) :
    combine_pdfs root src out ex prev =
      { createdOutputFolder := !ex, merge := combineMerge src root,
        writtenPath := none, outputContent := prev,
        noPdfNotice := true, normalExit := true } := by
  rw [combine_pdfs]
  split
  · rename_i hpos
    rw [h] at hpos
    exact absurd hpos (by simp)
  · rfl

theorem combine_pdfs_of_count_pos {root : Option (List Entry)} {src : List Char}
    (out : List Char) (ex : Bool) (prev : Option (List Nat))
    (h : 0 < (combineMerge src root).pdf_count) :
    combine_pdfs root src out ex prev =
      { createdOutputFolder := !ex, merge := combineMerge src root,
        writtenPath := some (osPathJoin out combinedName),
        outputContent := some (combineMerge src root).pages,
        noPdfNotice := false, normalExit := true } := by
  rw [combine_pdfs]
  split
  · rfl
  · rename_i hpos
    exact absurd h hpos

theorem combineMerge_pages (src : List Char) (root : Option (List Entry)) :
    (combineMerge src root).pages
      = ((orderedCandidates src root).filterMap (fun pe => entryPages pe.2)).flatten := by
  rw [combineMerge_eq_foldl, foldl_appendStep]
  rfl

theorem combineMerge_attempts (src : List Char) (root : Option (List Entry)) :
    (combineMerge src root).attempts = (orderedCandidates src root).map Prod.fst := by
  rw [combineMerge_eq_foldl, foldl_appendStep]
  rfl

theorem combineMerge_added (src : List Char) (root : Option (List Entry)) :
    (combineMerge src root).added
      = ((orderedCandidates src root).filter
          (fun pe => (entryPages pe.2).isSome)).map Prod.fst := by
  rw [combineMerge_eq_foldl, foldl_appendStep]
  rfl

theorem combineMerge_errors (src : List Char) (root : Option (List Entry)) :
    (combineMerge src root).errors
      = ((orderedCandidates src root).filter
          (fun pe => !(entryPages pe.2).isSome)).map Prod.fst := by
  rw [combineMerge_eq_foldl, foldl_appendStep]
  rfl

theorem combineMerge_count (src : List Char) (root : Option (List Entry)) :
    (combineMerge src root).pdf_count
      = ((orderedCandidates src root).filter
          (fun pe => (entryPages pe.2).isSome)).length := by
  rw [combineMerge_eq_foldl, foldl_appendStep]
  simp [initSt]

/-! ### The claims -/

/-- C1: the merged output is exactly the concatenation, in order, of the
page lists of the successfully appended files, where the order is: all
discovered folders sorted by the natural-sort key of their path, and
within each folder the candidates sorted by the natural-sort key of their
filename, with the page order inside each file preserved
(`orderedCandidates` is the double-sorted candidate sequence, and the
folder list and each per-folder candidate list are sorted w.r.t. `nameLE`);
files `a1.pdf, a2.pdf, a10.pdf` (listed on disk out of order) merge in
exactly that order. -/
theorem c1_output_page_order :
    (∀ (root : Option (List Entry)) (src out : List Char) (ex : Bool)
        (prev : Option (List Nat)),
      (combine_pdfs root src out ex prev).merge.pages
        = ((orderedCandidates src root).filterMap (fun pe => entryPages pe.2)).flatten)
    ∧ (∀ (src : List Char) (root : Option (List Entry)),
        (sortedFolders src root).Pairwise (fun a b => nameLE a.1 b.1 = true))
    ∧ (∀ es : List Entry,
        (pdfCandidates es).Pairwise
          (fun a b => nameLE (entryName a) (entryName b) = true))
    ∧ (combineMerge "src".toList (some exampleTree)).added
        = ["src/a1.pdf".toList, "src/a2.pdf".toList, "src/a10.pdf".toList]
    ∧ (combineMerge "src".toList (some exampleTree)).pages = [1, 2, 10] := by
  refine ⟨?_, ?_, ?_, ?_, ?_⟩
  · intro root src out ex prev
    rw [combine_pdfs_merge, combineMerge_pages]
  · intro src root
    exact sortedFolders_sorted src root
  · intro es
    exact pdfCandidates_sorted es
  · decide
  · decide

/-- C2, counterexample: on a missing source folder (`root = none`),
`combine_pdfs` does not abort with a fatal error — CPython's `os.walk`
swallows the `scandir` failure, so the run completes normally (exit 0),
writes nothing, and prints the "no PDF files found" notice. -/
theorem c2_counterexample :
    (combine_pdfs none "missing".toList "out".toList false none).normalExit = true
    ∧ (combine_pdfs none "missing".toList "out".toList false none).writtenPath = none
    ∧ (combine_pdfs none "missing".toList "out".toList false none).noPdfNotice = true := by
  exact ⟨rfl, rfl, rfl⟩

/-- C2, amended: when the source folder does not exist or is not a
directory, `os.walk` yields nothing, so the run behaves like a run over an
empty tree: nothing is merged, no output is produced, the "no PDF files
found" notice is printed, and the process terminates normally (exit 0).
There is no InvalidSource abort. -/
theorem c2_missing_source_runs_normally :
    ∀ (src out : List Char) (ex : Bool) (prev : Option (List Nat)),
      combine_pdfs none src out ex prev =
        { createdOutputFolder := !ex, merge := initSt, writtenPath := none,
          outputContent := prev, noPdfNotice := true, normalExit := true } := by
  intro src out ex prev
  have h : (combineMerge src none).pdf_count = 0 := rfl
  rw [combine_pdfs_of_count_zero out ex prev h]
  rfl

/-- C4: every append attempt targets a candidate of the double-sorted
order (folders sorted by path key, files within a folder sorted by name
key), each reachable `.pdf`-suffixed entry is attempted exactly once (the
ordered candidates are a permutation of the unsorted folder-by-folder
enumeration of all reachable candidates), and the successfully appended
files are exactly the candidates whose append succeeds, at their sorted
positions. -/
theorem c4_completeness :
    ∀ (root : Option (List Entry)) (src out : List Char) (ex : Bool)
      (prev : Option (List Nat)),
      (combine_pdfs root src out ex prev).merge.attempts
        = (orderedCandidates src root).map Prod.fst
      ∧ (orderedCandidates src root).Perm (allPdfCandidates src root)
      ∧ (combine_pdfs root src out ex prev).merge.added
        = ((orderedCandidates src root).filter
            (fun pe => (entryPages pe.2).isSome)).map Prod.fst := by
  intro root src out ex prev
  refine ⟨?_, orderedCandidates_perm src root, ?_⟩
  · rw [combine_pdfs_merge, combineMerge_attempts]
  · rw [combine_pdfs_merge, combineMerge_added]

/-- C8: whenever at least one file was merged, the output is written to
exactly `os.path.join(output_folder, 'combined_pdf.pdf')`, the previous
content of that path is replaced by the merged pages whatever it was, the
output folder is created when absent, and the run completes normally. -/
theorem c8_output_path :
    ∀ (root : Option (List Entry)) (src out : List Char) (ex : Bool)
      (prev : Option (List Nat)),
      0 < (combine_pdfs root src out ex prev).merge.pdf_count →
      (combine_pdfs root src out ex prev).writtenPath
        = some (osPathJoin out combinedName)
      ∧ (combine_pdfs root src out ex prev).outputContent
        = some (combine_pdfs root src out ex prev).merge.pages
      ∧ (combine_pdfs root src out ex prev).createdOutputFolder = !ex
      ∧ (combine_pdfs root src out ex prev).normalExit = true := by
  intro root src out ex prev h
  rw [combine_pdfs_merge] at h
  rw [combine_pdfs_of_count_pos out ex prev h]
  exact ⟨rfl, rfl, rfl, rfl⟩

/-- C8, witness: a run over three PDFs with a pre-existing output folder
and a pre-existing output file lands at `out/combined_pdf.pdf` with the
merged pages, replacing the old content. -/
theorem c8_witness :
    0 < (combine_pdfs (some exampleTree) "s".toList "out".toList true
          (some [99])).merge.pdf_count
    ∧ (combine_pdfs (some exampleTree) "s".toList "out".toList true
          (some [99])).writtenPath = some (osPathJoin "out".toList combinedName)
    ∧ (combine_pdfs (some exampleTree) "s".toList "out".toList true
          (some [99])).outputContent = some [1, 2, 10] :=
  ⟨by decide,
   (c8_output_path (some exampleTree) "s".toList "out".toList true (some [99])
     (by decide)).1,
   ((c8_output_path (some exampleTree) "s".toList "out".toList true (some [99])
     (by decide)).2.1).trans (by decide)⟩

/-- C10: `os.makedirs(output_folder)` runs exactly when the output folder
does not already exist, before any scanning: whether it runs depends only
on `outputFolderExists`, never on the source tree — it is created even
when the source folder is missing (`root = none`), when the tree has no
PDFs, or when every append fails. -/
theorem c10_output_folder_creation :
    ∀ (root : Option (List Entry)) (src out : List Char) (ex : Bool)
      (prev : Option (List Nat)),
      (combine_pdfs root src out ex prev).createdOutputFolder = !ex
      ∧ (combine_pdfs root src out ex prev).createdOutputFolder
          = (combine_pdfs none src out ex prev).createdOutputFolder := by
  intro root src out ex prev
  refine ⟨combine_pdfs_created root src out ex prev, ?_⟩
  rw [combine_pdfs_created, combine_pdfs_created]

/-- C3: `natural_sort_key` maps the chunks of the split over maximal
digit runs through the comprehension; the split is exactly
characterised by: well-formed alternation (`goodChunks`), concatenating
back to the input, and uniqueness of any such split; digit runs tokenize
to their parsed integer and every other chunk to its lowercased self; and
these keys order `file2.pdf` before `file10.pdf` and do not distinguish
`A` from `a`. -/
theorem c3_natural_sort_key_spec :
    (∀ s : List Char,
      natural_sort_key s = (reSplitDigits s).map tokenize
      ∧ goodChunks (reSplitDigits s) = true
      ∧ (reSplitDigits s).flatten = s
      ∧ (∀ cs, goodChunks cs = true → cs.flatten = s → cs = reSplitDigits s)
      ∧ (∀ cs, ndChunk cs = true → tokenize cs = Token.str (cs.map Char.toLower))
      ∧ (∀ cs, dChunk cs = true → tokenize cs = Token.num (parseDigits cs)))
    ∧ keyCmp (natural_sort_key "file2.pdf".toList)
        (natural_sort_key "file10.pdf".toList) = some Ordering.lt
    ∧ keyCmp (natural_sort_key "A".toList) (natural_sort_key "a".toList)
        = some Ordering.eq := by
  refine ⟨fun s => ⟨rfl, goodChunks_reSplit s, flatten_reSplit s,
    fun cs h1 h2 => reSplit_unique s cs h1 h2,
    fun cs h => tokenize_nd h, fun cs h => tokenize_d h⟩, ?_, ?_⟩
  · decide
  · decide

/-- C3, witness: the well-formed split `["a", "1", "b"]` of `"a1b"` is
recognised and is the unique split `reSplitDigits` computes; a non-digit
chunk tokenizes to its lowercased string and a digit run to its value. -/
theorem c3_witness :
    goodChunks [['a'], ['1'], ['b']] = true
    ∧ [['a'], ['1'], ['b']].flatten = "a1b".toList
    ∧ [['a'], ['1'], ['b']] = reSplitDigits "a1b".toList
    ∧ tokenize ['X'] = Token.str (['X'].map Char.toLower)
    ∧ tokenize ['4', '2'] = Token.num (parseDigits ['4', '2']) :=
  ⟨by decide, by decide,
   (c3_natural_sort_key_spec.1 "a1b".toList).2.2.2.1 [['a'], ['1'], ['b']]
     (by decide) (by decide),
   (c3_natural_sort_key_spec.1 []).2.2.2.2.1 ['X'] (by decide),
   (c3_natural_sort_key_spec.1 []).2.2.2.2.2 ['4', '2'] (by decide)⟩

/-- C5: append failures are isolated per file: the reported errors are
exactly the failing candidates (with their paths, in sorted order), the
appended files are exactly the succeeding candidates in the same sorted
order — unaffected by the failing ones —, the success count equals the
number of successful appends, and the output contains exactly the pages of
the succeeding candidates; concretely, merging `b1.pdf, b2.pdf, b3.pdf`
where `b2.pdf` is corrupt yields `b1, b3` in order with `b2` reported. -/
theorem c5_fault_isolation :
    (∀ (root : Option (List Entry)) (src out : List Char) (ex : Bool)
        (prev : Option (List Nat)),
      (combine_pdfs root src out ex prev).merge.errors
        = ((orderedCandidates src root).filter
            (fun pe => !(entryPages pe.2).isSome)).map Prod.fst
      ∧ (combine_pdfs root src out ex prev).merge.added
        = ((orderedCandidates src root).filter
            (fun pe => (entryPages pe.2).isSome)).map Prod.fst
      ∧ (combine_pdfs root src out ex prev).merge.pdf_count
        = (combine_pdfs root src out ex prev).merge.added.length
      ∧ (combine_pdfs root src out ex prev).merge.pages
        = ((orderedCandidates src root).filterMap
            (fun pe => entryPages pe.2)).flatten)
    ∧ (combineMerge "s".toList (some faultTree)).added
        = ["s/b1.pdf".toList, "s/b3.pdf".toList]
    ∧ (combineMerge "s".toList (some faultTree)).errors = ["s/b2.pdf".toList]
    ∧ (combineMerge "s".toList (some faultTree)).pages = [1, 3]
    ∧ (combineMerge "s".toList (some faultTree)).pdf_count = 2 := by
  refine ⟨?_, by decide, by decide, by decide, by decide⟩
  intro root src out ex prev
  refine ⟨?_, ?_, ?_, ?_⟩
  · rw [combine_pdfs_merge, combineMerge_errors]
  · rw [combine_pdfs_merge, combineMerge_added]
  · rw [combine_pdfs_merge, combineMerge_count, combineMerge_added,
      List.length_map]
  · rw [combine_pdfs_merge, combineMerge_pages]

/-- C6: in every run that merged zero files, nothing is written, the
output path keeps its previous content, the "no PDF files found" notice is
printed, and the process completes normally; and a source tree with zero
`.pdf` files merges zero files and appends nothing. -/
theorem c6_empty_result :
    ∀ (root : Option (List Entry)) (src out : List Char) (ex : Bool)
      (prev : Option (List Nat)),
      ((combine_pdfs root src out ex prev).merge.pdf_count = 0 →
        (combine_pdfs root src out ex prev).writtenPath = none
        ∧ (combine_pdfs root src out ex prev).noPdfNotice = true
        ∧ (combine_pdfs root src out ex prev).normalExit = true
        ∧ (combine_pdfs root src out ex prev).outputContent = prev)
      ∧ (treeHasNoPdfFiles src root = true →
        (combine_pdfs root src out ex prev).merge.pdf_count = 0
        ∧ (combine_pdfs root src out ex prev).merge.added = []) := by
  intro root src out ex prev
  constructor
  · intro h0
    rw [combine_pdfs_merge] at h0
    rw [combine_pdfs_of_count_zero out ex prev h0]
    exact ⟨rfl, rfl, rfl, rfl⟩
  · intro hno
    have hfil : (orderedCandidates src root).filter
        (fun pe => (entryPages pe.2).isSome) = [] := by
      rw [List.filter_eq_nil_iff]
      intro pe hpe
      obtain ⟨f, hf, e, he, hpdf, rfl⟩ := mem_orderedCandidates hpe
      cases e with
      | dir n sub => simp [entryPages]
      | file n p =>
        exfalso
        simp only [treeHasNoPdfFiles, List.all_eq_true] at hno
        have hfw : f ∈ walkRoot src root :=
          (sortedFolders_perm src root).mem_iff.mp hf
        have h2 := hno f hfw (Entry.file n p) he
        simp only [isPdfFileEntry, Bool.not_eq_true'] at h2
        simp only [entryName] at hpdf
        rw [h2] at hpdf
        exact Bool.noConfusion hpdf
    constructor
    · rw [combine_pdfs_merge, combineMerge_count, hfil]
      rfl
    · rw [combine_pdfs_merge, combineMerge_added, hfil]
      rfl

/-- C6, witness: a source tree holding only `notes.txt` merges zero files,
appends nothing, writes nothing, and only the notice is reported. -/
theorem c6_witness :
    treeHasNoPdfFiles "s".toList (some txtTree) = true
    ∧ (combine_pdfs (some txtTree) "s".toList "out".toList false none).merge.pdf_count = 0
    ∧ (combine_pdfs (some txtTree) "s".toList "out".toList false none).merge.added = []
    ∧ (combine_pdfs (some txtTree) "s".toList "out".toList false none).writtenPath = none
    ∧ (combine_pdfs (some txtTree) "s".toList "out".toList false none).noPdfNotice = true :=
  ⟨by decide,
   ((c6_empty_result (some txtTree) "s".toList "out".toList false none).2 (by decide)).1,
   ((c6_empty_result (some txtTree) "s".toList "out".toList false none).2 (by decide)).2,
   ((c6_empty_result (some txtTree) "s".toList "out".toList false none).1 (by decide)).1,
   ((c6_empty_result (some txtTree) "s".toList "out".toList false none).1 (by decide)).2.1⟩

/-- C7: every path ever passed to `merger.append` ends in `.pdf`
case-insensitively — a file without the suffix is never appended nor can
its pages reach the output. -/
theorem c7_non_pdf_exclusion :
    ∀ (root : Option (List Entry)) (src out : List Char) (ex : Bool)
      (prev : Option (List Nat)) (p : List Char),
      p ∈ (combine_pdfs root src out ex prev).merge.attempts →
      isPdfName p = true := by
  intro root src out ex prev p hp
  rw [combine_pdfs_merge, combineMerge_attempts] at hp
  simp only [List.mem_map] at hp
  obtain ⟨pe, hpe, rfl⟩ := hp
  obtain ⟨f, hf, e, he, hpdf, rfl⟩ := mem_orderedCandidates hpe
  exact isPdfName_osPathJoin hpdf

/-- C7, witness: a path attempted in a concrete run carries the suffix. -/
theorem c7_witness :
    "s/a1.pdf".toList ∈ (combine_pdfs (some exampleTree) "s".toList "out".toList
      false none).merge.attempts
    ∧ isPdfName "s/a1.pdf".toList = true :=
  ⟨by decide,
   c7_non_pdf_exclusion (some exampleTree) "s".toList "out".toList false none
     "s/a1.pdf".toList (by decide)⟩

theorem isStrTok_getD_of_alt : ∀ (l : List Token) (b : Bool),
    tokensAlternate b l = true → ∀ i, i < l.length →
    isStrTok (l.getD i (Token.num 0)) = (b == decide (i % 2 = 0)) := by
  intro l
  induction l with
  | nil => intro b _ i hi; simp at hi
  | cons t ts ih =>
    intro b halt i hi
    cases i with
    | zero =>
      cases b with
      | true =>
        cases t with
        | str a => simp [isStrTok]
        | num a => simp [tokensAlternate] at halt
      | false =>
        cases t with
        | str a => simp [tokensAlternate] at halt
        | num a => simp [isStrTok]
    | succ j =>
      have hj : j < ts.length := by
        simp only [List.length_cons] at hi
        omega
      cases b with
      | true =>
        cases t with
        | num a => simp [tokensAlternate] at halt
        | str a =>
          simp only [tokensAlternate] at halt
          have hrec := ih false halt j hj
          simp only [List.getD_cons_succ]
          rw [hrec]
          rcases Nat.mod_two_eq_zero_or_one j with h | h
          · have h2 : (j + 1) % 2 = 1 := by omega
            simp [h, h2]
          · have h2 : (j + 1) % 2 = 0 := by omega
            simp [h, h2]
      | false =>
        cases t with
        | str a => simp [tokensAlternate] at halt
        | num a =>
          simp only [tokensAlternate] at halt
          have hrec := ih true halt j hj
          simp only [List.getD_cons_succ]
          rw [hrec]
          rcases Nat.mod_two_eq_zero_or_one j with h | h
          · have h2 : (j + 1) % 2 = 1 := by omega
            simp [h, h2]
          · have h2 : (j + 1) % 2 = 0 := by omega
            simp [h, h2]

/-- C9: every natural sort key strictly alternates string and integer
tokens — a string at every even index, an integer at every odd index — so
any two keys are compared position by position with matching token kinds:
the comparison never hits the mixed-type case (`keyCmp` is always `some`,
never the `TypeError` value `none`), and the sort relation on names is
total. -/
theorem c9_key_alternation_totality :
    ∀ s t : List Char,
      tokensAlternate true (natural_sort_key s) = true
      ∧ (∀ i, i < (natural_sort_key s).length →
          isStrTok ((natural_sort_key s).getD i (Token.num 0))
            = decide (i % 2 = 0))
      ∧ (keyCmp (natural_sort_key s) (natural_sort_key t)).isSome = true
      ∧ (nameLE s t || nameLE t s) = true := by
  intro s t
  refine ⟨key_alternates s, ?_, keyCmp_keys_isSome s t, nameLE_total s t⟩
  intro i hi
  have := isStrTok_getD_of_alt (natural_sort_key s) true (key_alternates s) i hi
  simpa using this

/-- C9, witness: the key of `"a1"` is `[str "a", num 1, str ""]`; its
token at index 1 is the integer token, and the keys of `"a1"` and `"b"`
compare without a mixed-type failure. -/
theorem c9_witness :
    1 < (natural_sort_key "a1".toList).length
    ∧ isStrTok ((natural_sort_key "a1".toList).getD 1 (Token.num 0))
        = decide (1 % 2 = 0) :=
  ⟨by decide,
   (c9_key_alternation_totality "a1".toList "b".toList).2.1 1 (by decide)⟩

end PdfMerger
